import Mathlib

/-!
Verification development for the osmosis-frontend concentrated-liquidity
front-end fragment: the CL tRPC router helpers (position status, reward
aggregation), the add-concentrated-liquidity UI config (price range, tick
range, deposit percentages, error derivation), the asset-pair price input
(currency-decimal shifting) and the string display utilities.

Numbers: the source computes on `Dec` from `@keplr-wallet/unit`, an
arbitrary-precision integer scaled by `10^18` (18 fixed decimal places),
ported from the cosmos-sdk `Dec`.  `add`/`sub` are exact; `mul` multiplies
the scaled integers and then removes one factor of `10^18` with banker's
rounding (`chopPrecisionAndRound`: round half to even); `quo` multiplies
the numerator by `10^36`, divides by the divisor's scaled integer with
truncation toward zero (`big.Int.Quo`) and then chops one factor of
`10^18` with the same banker's rounding.  That model is embedded exactly
below (`Osmosis.Dec`); machine integers do not occur (JS bigints).
-/

namespace Osmosis

/-- A Keplr/cosmos-sdk fixed-point decimal: the integer `i` represents the
value `i / 10^18`. -/
structure Dec where
  i : ℤ
  deriving DecidableEq, Repr

namespace Dec

/-- cosmos-sdk `chopPrecisionAndRound` on a natural number: divide by
`10^18` rounding half to even (banker's rounding). -/
def chopNat (n : ℕ) : ℕ :=
  if n % 10 ^ 18 = 0 then n / 10 ^ 18
  else if n % 10 ^ 18 < 5 * 10 ^ 17 then n / 10 ^ 18
  else if 5 * 10 ^ 17 < n % 10 ^ 18 then n / 10 ^ 18 + 1
  else if (n / 10 ^ 18) % 2 = 0 then n / 10 ^ 18 else n / 10 ^ 18 + 1

/-- cosmos-sdk `chopPrecisionAndRound` on an integer: the negative case is
handled by removing the sign, chopping and restoring the sign. -/
def chop (x : ℤ) : ℤ :=
  if x < 0 then -(chopNat x.natAbs : ℤ) else (chopNat x.natAbs : ℤ)

/-- Truncated (toward-zero) integer division, the behaviour of
`big.Int.Quo` / the JS bigint `div` used by `Dec.quoRaw`. -/
def tdivInt (x y : ℤ) : ℤ :=
  if 0 ≤ x * y then (x.natAbs / y.natAbs : ℕ) else -((x.natAbs / y.natAbs : ℕ) : ℤ)

def add (a b : Dec) : Dec := ⟨a.i + b.i⟩

def sub (a b : Dec) : Dec := ⟨a.i - b.i⟩

/-- `Dec.mul`: multiply the scaled integers, then chop one `10^18` factor
with banker's rounding. -/
def mul (a b : Dec) : Dec := ⟨chop (a.i * b.i)⟩

/-- `Dec.quo`: scale the numerator by `10^36`, divide truncating toward
zero, then chop one `10^18` factor with banker's rounding. -/
def quo (a b : Dec) : Dec := ⟨chop (tdivInt (a.i * 10 ^ 36) b.i)⟩

def lt (a b : Dec) : Bool := decide (a.i < b.i)

def gt (a b : Dec) : Bool := decide (b.i < a.i)

def lte (a b : Dec) : Bool := decide (a.i ≤ b.i)

def gte (a b : Dec) : Bool := decide (b.i ≤ a.i)

def isZero (a : Dec) : Bool := decide (a.i = 0)

/-- `new Dec(n)` for an integer literal `n`. -/
def ofInt (n : ℤ) : Dec := ⟨n * 10 ^ 18⟩

/-- `DecUtils.getTenExponentN n`, the decimal `10^n`; defined for
`n ≥ -18` (the source throws below `-18`). -/
def tenExp (n : ℤ) : Dec := ⟨10 ^ (n + 18).toNat⟩

theorem chopNat_mul_scale (n : ℕ) : chopNat (n * 10 ^ 18) = n := by
  unfold chopNat
  split_ifs <;> omega

theorem chop_mul_scale (x : ℤ) : chop (x * 10 ^ 18) = x := by
  unfold chop
  have habs : (x * 10 ^ 18).natAbs = x.natAbs * 10 ^ 18 := by
    rw [Int.natAbs_mul]
    norm_num
  rw [habs, chopNat_mul_scale]
  split_ifs with h <;> omega

theorem tdivInt_mul_cancel (w d : ℤ) (hd : d ≠ 0) : tdivInt (w * d) d = w := by
  unfold tdivInt
  have hdn : 0 < d.natAbs := Int.natAbs_pos.mpr hd
  have habs : (w * d).natAbs / d.natAbs = w.natAbs := by
    rw [Int.natAbs_mul, Nat.mul_div_cancel _ hdn]
  rw [habs]
  have hdd : 0 < d * d := mul_self_pos.mpr hd
  rcases le_or_lt 0 w with hw | hw
  · have : 0 ≤ w * d * d := by
      rw [mul_assoc]
      exact mul_nonneg hw hdd.le
    rw [if_pos this]
    omega
  · have : w * d * d < 0 := by
      rw [mul_assoc]
      exact mul_neg_of_neg_of_pos hw hdd
    rw [if_neg (by omega)]
    omega

end Dec

/-!
String display utilities (`packages/web/utils/string.ts`).  JS strings are
embedded as `List Char`; indices and `slice`/`substring`/`charAt` become
list operations on the same indices.
-/

/-- `truncateString`: returns `str` unchanged when its length is at most
`num`, else the first `num` characters followed by `"..."`. -/
def truncateString (str : List Char) (num : ℕ) : List Char :=
  if str.length ≤ num then str
  else str.take num ++ ['.', '.', '.']

/-- The `while (i > decimalPointIndex && str.charAt(i) === '0') i--;` loop
of `trimZerosFromEnd`, descending from the start index: returns the final
value of `i`.  `charAt` out of range cannot occur on the call sites used
here (the start index is `str.length - 1`). -/
def trimLoop (str : List Char) (decimalPointIndex : ℕ) : ℕ → ℕ
  | 0 => 0
  | j + 1 =>
    if decimalPointIndex < j + 1 ∧ str.getD (j + 1) ' ' = '0' then
      trimLoop str decimalPointIndex j
    else j + 1

/-- `trimZerosFromEnd`: trims `'0'`s from the end iff the characters after
the first `'.'` are not all `'0'`s.  `indexOf` is `findIdx?` (`-1` becomes
`none`), `substring(i+1)` is `drop (i+1)`, the final `substring(0, i+1)`
is `take (i+1)`. -/
def trimZerosFromEnd (str : List Char) : List Char :=
  match str.findIdx? (· = '.') with
  | none => str
  | some decimalPointIndex =>
    if (str.drop (decimalPointIndex + 1)).all (· = '0') then str
    else
      let i := trimLoop str decimalPointIndex (str.length - 1)
      let i2 := if str.getD i ' ' = '.' then i - 1 else i
      str.take (i2 + 1)

/-- Specification-side helper for C7: remove all trailing `'0'`
characters. -/
def dropTrailingZeros (str : List Char) : List Char :=
  (str.reverse.dropWhile (· = '0')).reverse

/-!
Concentrated-liquidity tRPC router helpers (`src/unnamed/part_000`).
-/

/-- Modelled from the spec: `minTick` of the external `@osmosis-labs/math`
library (tick bound; the library itself is outside this repository
fragment). -/
def minTick : ℤ := -108000000

/-- Modelled from the spec: `maxTick` of the external `@osmosis-labs/math`
library. -/
def maxTick : ℤ := 342000000

inductive PositionStatus where
  | inRange
  | nearBounds
  | outOfRange
  | fullRange
  | unbonding
  | superfluidStaked
  | superfluidUnstaking
  deriving DecidableEq, Repr

namespace Dec

/-- The `Dec` minimum.  The source computes
`new Dec(Math.min(Number(a.toString()), Number(b.toString())))`: each
difference is rounded through float64 first, and `Math.min` then picks
the smaller rounded value.  Float order embeds in decimal order (the
shortest decimal representations of two floats compare like the floats
and parse back exactly), so re-wrapping `Math.min`'s result as a `Dec`
equals the `Dec` minimum of the two individually rounded values; the
rounding itself enters `getPositionStatus` as the explicit `f64`
parameter. -/
def jsMin (a b : Dec) : Dec := if a.i ≤ b.i then a else b

end Dec

/-- `getPositionStatus` of the CL router: fixed-precedence status
derivation.  `f64` is the float64 round-trip
`x ↦ new Dec(Number(x.toString()))` that the source applies to each
price difference before `Math.min`; being floating-point behaviour it is
outside the exact embedding and is taken as an explicit parameter (a
counterexample instantiates it at inputs where it is provably the
identity). -/
def getPositionStatus (f64 : Dec → Dec) (lowerPrice upperPrice currentPrice : Dec)
    (isFullRange isSuperfluid isSuperfluidUnstaking isUnbonding : Bool) :
    PositionStatus :=
  let inRange := lowerPrice.lt currentPrice && upperPrice.gt currentPrice
  let diff := Dec.jsMin (f64 (currentPrice.sub lowerPrice))
    (f64 (upperPrice.sub currentPrice))
  let rangeDiff := upperPrice.sub lowerPrice
  let diffPercentage :=
    if currentPrice.isZero || rangeDiff.isZero then Dec.ofInt 0
    else (diff.quo rangeDiff).mul (Dec.ofInt 100)
  if isFullRange then .fullRange
  else if isUnbonding then .unbonding
  else if isSuperfluid then .superfluidStaked
  else if isSuperfluidUnstaking then .superfluidUnstaking
  else if inRange then
    if diffPercentage.lte (Dec.ofInt 15) then .nearBounds else .inRange
  else .outOfRange

/-- `getPriceFromSqrtPrice`: squares the sqrt price and shifts by the
difference of the base and quote currency decimals. -/
def getPriceFromSqrtPrice (sqrtPrice : Dec) (baseDecimals quoteDecimals : ℤ) : Dec :=
  let multiplicationQuoteOverBase := Dec.tenExp (baseDecimals - quoteDecimals)
  (sqrtPrice.mul sqrtPrice).mul multiplicationQuoteOverBase

/-- `isPositionFullRange`: both ticks sit at the global tick bounds. -/
def isPositionFullRange (lowerTick upperTick : ℤ) : Bool :=
  decide (lowerTick = minTick) && decide (upperTick = maxTick)

/-- A raw reward entry as returned by the chain queries: denom and
amount. -/
structure RawAsset where
  denom : String
  amount : ℤ
  deriving DecidableEq, Repr

/-- The `CoinPretty` data the router aggregation observes: the asset's
`coinMinimalDenom` and the amount. -/
structure Coin where
  denom : String
  amount : ℤ
  deriving DecidableEq, Repr

/-- `mapRawAssetsToCoinPretty`: resolve each raw denom through `getAsset`
and drop unresolved entries.  `getAsset` (the asset registry, outside this
repository fragment) is modelled from the spec as a lookup parameter
giving the resolved asset's `coinMinimalDenom`. -/
def mapRawAssetsToCoinPretty (lookup : String → Option String)
    (rawAssets : List RawAsset) : List Coin :=
  rawAssets.filterMap fun r => (lookup r.denom).map fun m => ⟨m, r.amount⟩

/-- One step of the `Map`-based reduction of `getTotalClaimableRewards` /
`getTotalEarned`: add the coin's amount to the existing entry of its
denom, or append a new entry.  A JS `Map` keeps insertion order and
`set` on a present key updates in place, so the map is an in-order
association list. -/
def sumIntoByDenom (acc : List Coin) (coin : Coin) : List Coin :=
  match acc with
  | [] => [coin]
  | c :: rest =>
    if c.denom = coin.denom then ⟨c.denom, c.amount + coin.amount⟩ :: rest
    else c :: sumIntoByDenom rest coin

/-- `getTotalClaimableRewards`: resolve both reward lists, then sum by
`coinMinimalDenom` (spread rewards first, then incentive rewards, as in
`[...claimableSpreadRewards, ...claimableIncentiveRewards].reduce`). -/
def getTotalClaimableRewards (lookup : String → Option String)
    (rawClaimableSpreadRewards rawClaimableIncentiveRewards : List RawAsset) :
    List Coin :=
  let claimableSpreadRewards := mapRawAssetsToCoinPretty lookup rawClaimableSpreadRewards
  let claimableIncentiveRewards := mapRawAssetsToCoinPretty lookup rawClaimableIncentiveRewards
  (claimableSpreadRewards ++ claimableIncentiveRewards).foldl sumIntoByDenom []

/-- `getTotalEarned`: the same aggregation (a `forEach` into a `Map`)
over total spread and total incentive rewards. -/
def getTotalEarned (lookup : String → Option String)
    (totalSpreadRewards totalIncentivesRewards : List RawAsset) : List Coin :=
  let spreadRewards := mapRawAssetsToCoinPretty lookup totalSpreadRewards
  let incentivesRewards := mapRawAssetsToCoinPretty lookup totalIncentivesRewards
  (spreadRewards ++ incentivesRewards).foldl sumIntoByDenom []

/-- Specification-side helper for C2: the total amount carried by a given
minimal denom in a coin list. -/
def denomAmount (l : List Coin) (m : String) : ℤ :=
  ((l.filter fun c => c.denom = m).map Coin.amount).sum

/-!
Asset-pair price input
(`src/packages/web/hooks/input/use-price-input.ts`).
-/

/-- `multiplicationQuoteOverBase`:
`DecUtils.getTenExponentN(baseDecimals - quoteDecimals)`. -/
def multiplicationQuoteOverBase (baseDecimals quoteDecimals : ℤ) : Dec :=
  Dec.tenExp (baseDecimals - quoteDecimals)

/-- `addCurrencyDecimals`: multiply a price by the quote-over-base ten
exponent. -/
def addCurrencyDecimals (baseDecimals quoteDecimals : ℤ) (price : Dec) : Dec :=
  price.mul (multiplicationQuoteOverBase baseDecimals quoteDecimals)

/-- `removeCurrencyDecimals`: divide a price by the quote-over-base ten
exponent. -/
def removeCurrencyDecimals (baseDecimals quoteDecimals : ℤ) (price : Dec) : Dec :=
  price.quo (multiplicationQuoteOverBase baseDecimals quoteDecimals)

/-!
Add-concentrated-liquidity config
(`src/packages/web/hooks/ui-config/use-add-concentrated-liquidity-config.ts`).
The `@osmosis-labs/math` functions and constants it calls live outside
this repository fragment and are modelled from the spec ("tick-price
conversion, range strategies"): simple executable models with the shape
the config relies on (monotone conversion clamped to the tick bounds,
rounding to the nearest divisible tick).
-/

/-- Modelled from the spec: `minSpotPrice` of the external math library
(`10^-12`). -/
def minSpotPrice : Dec := ⟨10 ^ 6⟩

/-- Modelled from the spec: `maxSpotPrice` of the external math library
(`10^30`). -/
def maxSpotPrice : Dec := ⟨10 ^ 48⟩

/-- Modelled from the spec: `priceToTick` of the external math library, a
monotone price-to-tick conversion.  The library throws on prices outside
`[minSpotPrice, maxSpotPrice]`, embedded as `none`; on valid prices the
conversion is modelled as monotone floor division squashed into the tick
bounds. -/
def priceToTick (p : Dec) : Option ℤ :=
  if p.i < minSpotPrice.i ∨ maxSpotPrice.i < p.i then none
  else
    let t := p.i / 10 ^ 12
    some (if t < minTick then minTick else if maxTick < t then maxTick else t)

/-- Modelled from the spec: `roundToNearestDivisible` of the external
math library: round a tick to the nearest multiple of `divisor`, ties
away from the smaller multiple. -/
def roundToNearestDivisible (int : ℤ) (divisor : ℤ) : ℤ :=
  divisor * ((2 * int + divisor) / (2 * divisor))

/-- Modelled from the spec: `roundPriceToNearestTick` of the external
math library: round a price down (`roundDown = true`) or up to the
nearest initializable tick price, here a multiple of
`tickSpacing * 10^-6`. -/
def roundPriceToNearestTick (price : Dec) (tickSpacing : ℕ) (roundDown : Bool) : Dec :=
  let inc : ℤ := 10 ^ 12 * tickSpacing
  if inc = 0 then price
  else if roundDown then ⟨inc * (price.i / inc)⟩
  else ⟨inc * -(-price.i / inc)⟩

/-- The `range` memo: `[minSpotPrice, maxSpotPrice]` on full range or a
missing pool, otherwise each input price rounded down to the nearest
tick and clamped to within `currentPrice/50` and `currentPrice*50`. -/
def rangeCompute (fullRange hasPool : Bool) (tickSpacing : ℕ)
    (inputMin inputMax currentPrice : Dec) : Dec × Dec :=
  if fullRange || !hasPool then (minSpotPrice, maxSpotPrice)
  else
    let inputMinPrice := roundPriceToNearestTick inputMin tickSpacing true
    let inputMaxPrice := roundPriceToNearestTick inputMax tickSpacing true
    let minPrice50x := currentPrice.quo (Dec.ofInt 50)
    let maxPrice50x := currentPrice.mul (Dec.ofInt 50)
    (if inputMinPrice.lt minPrice50x then minPrice50x else inputMinPrice,
     if inputMaxPrice.gt maxPrice50x then maxPrice50x else inputMaxPrice)

/-- The `tickRange` memo: convert both range prices to ticks, round each
to the nearest divisible tick, pad both by one tick spacing if they
rounded to the same value, then clamp into `[minTick, maxTick]`.
The source's `fullRange || !tickDivisor` guard reduces to `fullRange`
(`tickDivisor` is always a constructed `Int` object, hence truthy); its
`catch` returns `[minTick, maxTick]` when `priceToTick` throws on either
price, embedded as the wildcard match arm. -/
def tickRange (fullRange : Bool) (tickDivisor : ℤ) (range01 : Dec × Dec) : ℤ × ℤ :=
  if fullRange then (minTick, maxTick)
  else
    match priceToTick range01.1, priceToTick range01.2 with
    | some lowerTick, some upperTick =>
      let lowerTickRounded := roundToNearestDivisible lowerTick tickDivisor
      let upperTickRounded := roundToNearestDivisible upperTick tickDivisor
      let padded :=
        if lowerTickRounded = upperTickRounded then
          (lowerTickRounded - tickDivisor, upperTickRounded + tickDivisor)
        else (lowerTickRounded, upperTickRounded)
      (if padded.1 < minTick then minTick else padded.1,
       if maxTick < padded.2 then maxTick else padded.2)
    | _, _ => (minTick, maxTick)

/-- The `baseDepositOnly` memo.  (The source's `typeof range0 ===
"string"` guard is dead: both range entries are always `Dec`s.) -/
def baseDepositOnly (currentPrice : Dec) (fullRange : Bool) (range01 : Dec × Dec) : Bool :=
  if currentPrice.isZero then false
  else !fullRange && currentPrice.lt range01.1 && currentPrice.lt range01.2

/-- The `quoteDepositOnly` memo. -/
def quoteDepositOnly (currentPrice : Dec) (fullRange : Bool) (range01 : Dec × Dec) : Bool :=
  if currentPrice.isZero then false
  else !fullRange && currentPrice.gt range01.1 && currentPrice.gt range01.2

/-- The `depositPercentages` memo.  `RatePretty` wraps a `Dec` (1 = 100%),
so the pair is embedded as the underlying `Dec`s; the fiat values are
`none` when a `useCoinFiatValue` query has no data. -/
def depositPercentages (amount0FiatValue amount1FiatValue : Option Dec)
    (bOnly qOnly : Bool) : Dec × Dec :=
  match amount0FiatValue, amount1FiatValue with
  | some amount0Fiat, some amount1Fiat =>
    if bOnly then (Dec.ofInt 1, Dec.ofInt 0)
    else if qOnly then (Dec.ofInt 0, Dec.ofInt 1)
    else
      let totalFiatValue := amount0Fiat.add amount1Fiat
      if totalFiatValue.isZero then (Dec.ofInt 0, Dec.ofInt 0)
      else (amount0Fiat.quo totalFiatValue, amount1Fiat.quo totalFiatValue)
  | _, _ => (Dec.ofInt 0, Dec.ofInt 0)

/-- The error values the `error` memo can produce: the config's own
`InvalidRangeError`, or an error propagated from a `useAmountInput`.
Amount-input errors (empty amount, insufficient balance, ...) are issued
by a module outside this fragment and are modelled from the spec as
tagged values distinct from `InvalidRangeError` (that class is
constructed only inside this config). -/
inductive ConfigError where
  | invalidRange
  | amountError (tag : String)
  deriving DecidableEq, Repr

/-- The `error` memo: `InvalidRangeError` for an inverted (or collapsed)
custom range, otherwise the quote input's error under quote-only deposit,
the base input's error under base-only deposit, and `baseError ||
quoteError` (first defined) otherwise. -/
def configError (fullRange : Bool) (range01 : Dec × Dec) (currentPrice : Dec)
    (baseInputError quoteInputError : Option String) : Option ConfigError :=
  if !fullRange && range01.1.gte range01.2 then some .invalidRange
  else if quoteDepositOnly currentPrice fullRange range01 then
    quoteInputError.map .amountError
  else if baseDepositOnly currentPrice fullRange range01 then
    baseInputError.map .amountError
  else
    match baseInputError.map ConfigError.amountError with
    | some e => some e
    | none => quoteInputError.map ConfigError.amountError

/-!
Shared helper lemmas.
-/

/-- A position cannot be base-deposit-only and quote-deposit-only at
once: the first needs `currentPrice < range[0]`, the second
`currentPrice > range[0]`. -/
theorem not_both_deposit_only (cur : Dec) (fr : Bool) (r : Dec × Dec) :
    ¬(baseDepositOnly cur fr r = true ∧ quoteDepositOnly cur fr r = true) := by
  rintro ⟨hb, hq⟩
  unfold baseDepositOnly at hb
  unfold quoteDepositOnly at hq
  split_ifs at hb hq
  all_goals
    simp only [Bool.and_eq_true, Bool.not_eq_true', Dec.lt, Dec.gt,
      decide_eq_true_eq, Bool.false_eq_true] at hb hq
  all_goals omega

theorem denomAmount_cons (c : Coin) (l : List Coin) (m : String) :
    denomAmount (c :: l) m = (if c.denom = m then c.amount else 0) + denomAmount l m := by
  unfold denomAmount
  by_cases h : c.denom = m
  · simp [List.filter_cons, h]
  · simp [List.filter_cons, h]

theorem sumIntoByDenom_denomAmount (acc : List Coin) (c : Coin) (m : String) :
    denomAmount (sumIntoByDenom acc c) m =
      denomAmount acc m + (if c.denom = m then c.amount else 0) := by
  induction acc with
  | nil =>
    simp only [sumIntoByDenom, denomAmount_cons]
    simp [denomAmount]
  | cons a t ih =>
    unfold sumIntoByDenom
    by_cases h : a.denom = c.denom
    · rw [if_pos h, denomAmount_cons, denomAmount_cons]
      dsimp only
      rw [h]
      by_cases hm : c.denom = m
      · rw [if_pos hm, if_pos hm, if_pos hm]
        ring
      · rw [if_neg hm, if_neg hm, if_neg hm]
        ring
    · rw [if_neg h, denomAmount_cons, ih, denomAmount_cons]
      ring

theorem sumIntoByDenom_denoms (acc : List Coin) (c : Coin) :
    (sumIntoByDenom acc c).map Coin.denom =
      if c.denom ∈ acc.map Coin.denom then acc.map Coin.denom
      else acc.map Coin.denom ++ [c.denom] := by
  induction acc with
  | nil => simp [sumIntoByDenom]
  | cons a t ih =>
    unfold sumIntoByDenom
    by_cases h : a.denom = c.denom
    · rw [if_pos h]
      simp only [List.map_cons]
      rw [if_pos (List.mem_cons.mpr (Or.inl h.symm))]
    · rw [if_neg h]
      simp only [List.map_cons, ih]
      by_cases hm : c.denom ∈ t.map Coin.denom
      · rw [if_pos hm, if_pos (List.mem_cons_of_mem _ hm)]
      · rw [if_neg hm, if_neg ?_]
        · simp
        · intro hc
          rcases List.mem_cons.mp hc with h1 | h1
          · exact h h1.symm
          · exact hm h1

theorem sumIntoByDenom_nodup (acc : List Coin) (c : Coin)
    (h : (acc.map Coin.denom).Nodup) :
    ((sumIntoByDenom acc c).map Coin.denom).Nodup := by
  rw [sumIntoByDenom_denoms]
  split_ifs with hm
  · exact h
  · simp [List.nodup_append, h, hm]

theorem foldl_sumIntoByDenom_denomAmount (xs : List Coin) :
    ∀ (acc : List Coin) (m : String),
      denomAmount (xs.foldl sumIntoByDenom acc) m =
        denomAmount acc m + denomAmount xs m := by
  induction xs with
  | nil =>
    intro acc m
    simp [denomAmount]
  | cons x t ih =>
    intro acc m
    simp only [List.foldl_cons]
    rw [ih, sumIntoByDenom_denomAmount, denomAmount_cons]
    ring

theorem foldl_sumIntoByDenom_mem (xs : List Coin) :
    ∀ (acc : List Coin) (m : String),
      m ∈ (xs.foldl sumIntoByDenom acc).map Coin.denom ↔
        m ∈ acc.map Coin.denom ∨ m ∈ xs.map Coin.denom := by
  induction xs with
  | nil =>
    intro acc m
    simp
  | cons x t ih =>
    intro acc m
    simp only [List.foldl_cons, List.map_cons, List.mem_cons]
    rw [ih, sumIntoByDenom_denoms]
    split_ifs with hm
    · constructor
      · rintro (h | h)
        · exact Or.inl h
        · exact Or.inr (Or.inr h)
      · rintro (h | h | h)
        · exact Or.inl h
        · exact Or.inl (h ▸ hm)
        · exact Or.inr h
    · simp only [List.mem_append, List.mem_singleton]
      constructor
      · rintro ((h | h) | h)
        · exact Or.inl h
        · exact Or.inr (Or.inl h)
        · exact Or.inr (Or.inr h)
      · rintro (h | h | h)
        · exact Or.inl (Or.inl h)
        · exact Or.inl (Or.inr h)
        · exact Or.inr h

theorem foldl_sumIntoByDenom_nodup (xs : List Coin) :
    ∀ acc : List Coin, (acc.map Coin.denom).Nodup →
      ((xs.foldl sumIntoByDenom acc).map Coin.denom).Nodup := by
  induction xs with
  | nil => exact fun acc h => h
  | cons x t ih =>
    intro acc h
    exact ih _ (sumIntoByDenom_nodup acc x h)

theorem denomAmount_eq_zero_of_not_mem (l : List Coin) (m : String)
    (h : m ∉ l.map Coin.denom) : denomAmount l m = 0 := by
  induction l with
  | nil => rfl
  | cons a t ih =>
    simp only [List.map_cons, List.mem_cons] at h
    push_neg at h
    rw [denomAmount_cons, if_neg (fun hh => h.1 hh.symm), ih h.2]
    ring

theorem denomAmount_self_of_nodup (l : List Coin)
    (h : (l.map Coin.denom).Nodup) :
    ∀ c ∈ l, denomAmount l c.denom = c.amount := by
  induction l with
  | nil =>
    intro c hc
    cases hc
  | cons a t ih =>
    intro c hc
    simp only [List.map_cons, List.nodup_cons] at h
    rcases List.mem_cons.mp hc with rfl | hct
    · rw [denomAmount_cons, if_pos rfl,
        denomAmount_eq_zero_of_not_mem t _ h.1]
      ring
    · rw [denomAmount_cons, if_neg ?_, ih h.2 c hct]
      · ring
      · intro hh
        exact h.1 (hh ▸ List.mem_map_of_mem Coin.denom hct)

theorem aggregate_foldl_spec (xs : List Coin) :
    ((xs.foldl sumIntoByDenom []).map Coin.denom).Nodup ∧
    (∀ m, m ∈ (xs.foldl sumIntoByDenom []).map Coin.denom ↔
      m ∈ xs.map Coin.denom) ∧
    ∀ c ∈ xs.foldl sumIntoByDenom [], c.amount = denomAmount xs c.denom := by
  refine ⟨foldl_sumIntoByDenom_nodup xs [] (by simp), fun m => ?_, fun c hc => ?_⟩
  · rw [foldl_sumIntoByDenom_mem]
    simp
  · have h1 := denomAmount_self_of_nodup _ (foldl_sumIntoByDenom_nodup xs [] (by simp)) c hc
    have h2 := foldl_sumIntoByDenom_denomAmount xs [] c.denom
    rw [← h1, h2]
    simp [denomAmount]

/-!
Claim theorems.
-/

/-- C8: `truncateString` returns `str` unchanged when `str.length ≤ num`
and otherwise the first `num` characters of `str` followed by `"..."`;
its result never exceeds `num + 3` characters. -/
theorem truncateString_spec (str : List Char) (num : ℕ) :
    (str.length ≤ num → truncateString str num = str) ∧
    (num < str.length →
      truncateString str num = str.take num ++ ['.', '.', '.']) ∧
    (truncateString str num).length ≤ num + 3 := by
  refine ⟨fun h => by rw [truncateString, if_pos h],
    fun h => by rw [truncateString, if_neg (by omega)], ?_⟩
  rw [truncateString]
  split_ifs with h
  · omega
  · simp only [List.length_append, List.length_take, List.length_cons,
      List.length_nil]
    omega

/-- Witness for C8 at a concrete input. -/
theorem truncateString_spec_witness :
    truncateString ['a', 'b'] 8 = ['a', 'b'] :=
  (truncateString_spec ['a', 'b'] 8).1 (by decide)

/-- C5: the position-normalization helpers are pure: embedded as total
functions of their arguments (no ambient state appears in the
embedding; the float64 round-trip inside `getPositionStatus` is itself a
deterministic function and enters as the `f64` argument), so two runs on
equal inputs return equal outputs. -/
theorem normalization_helpers_deterministic :
    (∀ (f64 f642 : Dec → Dec) (lp up cp lp2 up2 cp2 : Dec)
       (f s su ub f2 s2 su2 ub2 : Bool),
      f64 = f642 → lp = lp2 → up = up2 → cp = cp2 → f = f2 → s = s2 → su = su2 →
      ub = ub2 →
      getPositionStatus f64 lp up cp f s su ub =
        getPositionStatus f642 lp2 up2 cp2 f2 s2 su2 ub2) ∧
    (∀ (sp sp2 : Dec) (bd qd bd2 qd2 : ℤ), sp = sp2 → bd = bd2 → qd = qd2 →
      getPriceFromSqrtPrice sp bd qd = getPriceFromSqrtPrice sp2 bd2 qd2) ∧
    (∀ (lt1 ut1 lt2 ut2 : ℤ), lt1 = lt2 → ut1 = ut2 →
      isPositionFullRange lt1 ut1 = isPositionFullRange lt2 ut2) := by
  refine ⟨?_, ?_, ?_⟩ <;> (intros; subst_vars; rfl)

/-- Witness for C5 at concrete equal inputs. -/
theorem normalization_helpers_deterministic_witness :
    getPositionStatus (fun d => d) ⟨0⟩ ⟨10 ^ 18⟩ ⟨1⟩ true false false false =
      getPositionStatus (fun d => d) ⟨0⟩ ⟨10 ^ 18⟩ ⟨1⟩ true false false false :=
  normalization_helpers_deterministic.1 _ _ _ _ _ _ _ _ _ _ _ _ _ _ _ _
    rfl rfl rfl rfl rfl rfl rfl rfl

/-- C4: with fullRange on, the computed range is exactly
`[minSpotPrice, maxSpotPrice]`; with fullRange off on a loaded pool with
a nonzero current price, each entry is the rounded-down input price
clamped so that `range[0]` is at least `currentPrice/50` and `range[1]`
at most `currentPrice*50` (both bounds computed in `Dec` arithmetic, as
in the source). -/
theorem range_clamped (tickSpacing : ℕ) (inputMin inputMax currentPrice : Dec) :
    rangeCompute true true tickSpacing inputMin inputMax currentPrice =
      (minSpotPrice, maxSpotPrice) ∧
    (currentPrice.isZero = false →
      ((currentPrice.quo (Dec.ofInt 50)).i ≤
          (rangeCompute false true tickSpacing inputMin inputMax currentPrice).1.i ∧
        (rangeCompute false true tickSpacing inputMin inputMax currentPrice).2.i ≤
          (currentPrice.mul (Dec.ofInt 50)).i ∧
        ((rangeCompute false true tickSpacing inputMin inputMax currentPrice).1 =
            roundPriceToNearestTick inputMin tickSpacing true ∨
          (rangeCompute false true tickSpacing inputMin inputMax currentPrice).1 =
            currentPrice.quo (Dec.ofInt 50)) ∧
        ((rangeCompute false true tickSpacing inputMin inputMax currentPrice).2 =
            roundPriceToNearestTick inputMax tickSpacing true ∨
          (rangeCompute false true tickSpacing inputMin inputMax currentPrice).2 =
            currentPrice.mul (Dec.ofInt 50)))) := by
  constructor
  · rfl
  · intro _
    have hexp : rangeCompute false true tickSpacing inputMin inputMax currentPrice =
        (if (roundPriceToNearestTick inputMin tickSpacing true).lt
              (currentPrice.quo (Dec.ofInt 50)) then currentPrice.quo (Dec.ofInt 50)
         else roundPriceToNearestTick inputMin tickSpacing true,
         if (roundPriceToNearestTick inputMax tickSpacing true).gt
              (currentPrice.mul (Dec.ofInt 50)) then currentPrice.mul (Dec.ofInt 50)
         else roundPriceToNearestTick inputMax tickSpacing true) := rfl
    rw [hexp]
    refine ⟨?_, ?_, ?_, ?_⟩
    · dsimp only
      split_ifs with h
      · exact le_refl _
      · simp only [Dec.lt, decide_eq_true_eq] at h
        omega
    · dsimp only
      split_ifs with h
      · exact le_refl _
      · simp only [Dec.gt, decide_eq_true_eq] at h
        omega
    · dsimp only
      split_ifs
      · exact Or.inr rfl
      · exact Or.inl rfl
    · dsimp only
      split_ifs
      · exact Or.inr rfl
      · exact Or.inl rfl

/-- Witness for C4 at a concrete input. -/
theorem range_clamped_witness :
    (Dec.isZero ⟨10 ^ 18⟩ = false) ∧
    ((Dec.quo ⟨10 ^ 18⟩ (Dec.ofInt 50)).i ≤
      (rangeCompute false true 100 ⟨10 ^ 18⟩ ⟨2 * 10 ^ 18⟩ ⟨10 ^ 18⟩).1.i) :=
  ⟨by decide, ((range_clamped 100 ⟨10 ^ 18⟩ ⟨2 * 10 ^ 18⟩ ⟨10 ^ 18⟩).2 (by decide)).1⟩

/-- C10: the derived error is `InvalidRangeError` exactly when fullRange
is off and `range[0] ≥ range[1]`; otherwise it is the quote input's error
under quote-only deposit, the base input's error under base-only deposit,
and the first defined of the base then quote input errors in all other
cases. -/
theorem configError_spec (fullRange : Bool) (range01 : Dec × Dec)
    (currentPrice : Dec) (baseInputError quoteInputError : Option String) :
    (configError fullRange range01 currentPrice baseInputError quoteInputError =
        some .invalidRange ↔ (fullRange = false ∧ range01.2.i ≤ range01.1.i)) ∧
    (¬(fullRange = false ∧ range01.2.i ≤ range01.1.i) →
      ((quoteDepositOnly currentPrice fullRange range01 = true →
          configError fullRange range01 currentPrice baseInputError quoteInputError =
            quoteInputError.map .amountError) ∧
       (baseDepositOnly currentPrice fullRange range01 = true →
          configError fullRange range01 currentPrice baseInputError quoteInputError =
            baseInputError.map .amountError) ∧
       (quoteDepositOnly currentPrice fullRange range01 = false →
        baseDepositOnly currentPrice fullRange range01 = false →
          configError fullRange range01 currentPrice baseInputError quoteInputError =
            match baseInputError with
            | some e => some (.amountError e)
            | none => quoteInputError.map .amountError))) := by
  have hcond : (!fullRange && range01.1.gte range01.2) = true ↔
      (fullRange = false ∧ range01.2.i ≤ range01.1.i) := by
    simp [Dec.gte, Bool.and_eq_true]
  constructor
  · unfold configError
    split_ifs with h1 h2 h3
    · simp only [hcond] at h1
      simp [h1]
    · constructor
      · intro h
        rcases quoteInputError with _ | e <;> simp_all
      · intro h
        exact absurd (hcond.mpr h) h1
    · constructor
      · intro h
        rcases baseInputError with _ | e <;> simp_all
      · intro h
        exact absurd (hcond.mpr h) h1
    · constructor
      · intro h
        rcases baseInputError with _ | e <;> rcases quoteInputError with _ | e2 <;>
          simp_all
      · intro h
        exact absurd (hcond.mpr h) h1
  · intro hno
    have h1 : (!fullRange && range01.1.gte range01.2) = false := by
      rcases Bool.eq_false_or_eq_true (!fullRange && range01.1.gte range01.2) with h | h
      · exact absurd (hcond.mp h) hno
      · exact h
    refine ⟨?_, ?_, ?_⟩
    · intro hq
      unfold configError
      rw [h1]
      simp only [Bool.false_eq_true, if_false, hq, if_true]
    · intro hb
      have hq : quoteDepositOnly currentPrice fullRange range01 = false := by
        rcases Bool.eq_false_or_eq_true
            (quoteDepositOnly currentPrice fullRange range01) with h | h
        · exact absurd ⟨hb, h⟩ (not_both_deposit_only currentPrice fullRange range01)
        · exact h
      unfold configError
      rw [h1]
      simp only [Bool.false_eq_true, if_false, hq, hb, if_true]
    · intro hq hb
      unfold configError
      rw [h1]
      simp only [Bool.false_eq_true, if_false, hq, hb]
      rcases baseInputError with _ | e <;> rfl

/-- Witness for C10 at a concrete input. -/
theorem configError_spec_witness :
    configError false (⟨10 ^ 18⟩, ⟨2 * 10 ^ 18⟩) ⟨0⟩ none (some "empty") =
      some (.amountError "empty") := by
  have h := ((configError_spec false (⟨10 ^ 18⟩, ⟨2 * 10 ^ 18⟩) ⟨0⟩ none
    (some "empty")).2 (by decide)).2.2 (by decide) (by decide)
  simpa using h

/-- C2: `getTotalClaimableRewards` returns exactly one coin per distinct
resolved `coinMinimalDenom` occurring in either raw reward list, carrying
the sum of every occurrence of that denom across both lists (spread plus
incentive); `getTotalEarned` computes the same aggregation over the total
spread and total incentive rewards. -/
theorem totalRewards_aggregation (lookup : String → Option String)
    (spread incentives tSpread tIncentives : List RawAsset) :
    (((getTotalClaimableRewards lookup spread incentives).map Coin.denom).Nodup ∧
     (∀ m, m ∈ (getTotalClaimableRewards lookup spread incentives).map Coin.denom ↔
        m ∈ (mapRawAssetsToCoinPretty lookup (spread ++ incentives)).map Coin.denom) ∧
     ∀ c ∈ getTotalClaimableRewards lookup spread incentives,
       c.amount =
         denomAmount (mapRawAssetsToCoinPretty lookup (spread ++ incentives)) c.denom) ∧
    (((getTotalEarned lookup tSpread tIncentives).map Coin.denom).Nodup ∧
     (∀ m, m ∈ (getTotalEarned lookup tSpread tIncentives).map Coin.denom ↔
        m ∈ (mapRawAssetsToCoinPretty lookup (tSpread ++ tIncentives)).map Coin.denom) ∧
     ∀ c ∈ getTotalEarned lookup tSpread tIncentives,
       c.amount =
         denomAmount (mapRawAssetsToCoinPretty lookup (tSpread ++ tIncentives)) c.denom) := by
  have hsplit : ∀ l1 l2 : List RawAsset,
      mapRawAssetsToCoinPretty lookup (l1 ++ l2) =
        mapRawAssetsToCoinPretty lookup l1 ++ mapRawAssetsToCoinPretty lookup l2 := by
    intro l1 l2
    unfold mapRawAssetsToCoinPretty
    exact List.filterMap_append l1 l2 _
  have hclaim : getTotalClaimableRewards lookup spread incentives =
      (mapRawAssetsToCoinPretty lookup (spread ++ incentives)).foldl sumIntoByDenom [] := by
    rw [hsplit]
    rfl
  have hearned : getTotalEarned lookup tSpread tIncentives =
      (mapRawAssetsToCoinPretty lookup (tSpread ++ tIncentives)).foldl sumIntoByDenom [] := by
    rw [hsplit]
    rfl
  rw [hclaim, hearned]
  exact ⟨aggregate_foldl_spec _, aggregate_foldl_spec _⟩

/-- Witness for C2 at a concrete input: `uosmo` occurs once in the spread
list and once in the incentive list; the aggregated coin carries the
sum. -/
theorem totalRewards_aggregation_witness :
    (⟨"uosmo", 3⟩ : Coin).amount =
      denomAmount
        (mapRawAssetsToCoinPretty
          (fun d => if d = "uosmo" then some "uosmo" else none)
          ([⟨"uosmo", 1⟩] ++ [⟨"uosmo", 2⟩, ⟨"ufoo", 5⟩])) "uosmo" :=
  (totalRewards_aggregation
    (fun d => if d = "uosmo" then some "uosmo" else none)
    [⟨"uosmo", 1⟩] [⟨"uosmo", 2⟩, ⟨"ufoo", 5⟩] [] []).1.2.2
    ⟨"uosmo", 3⟩ (by decide)

theorem remove_add_of_le (bd qd : ℤ) (p : Dec) (h : qd ≤ bd) :
    removeCurrencyDecimals bd qd (addCurrencyDecimals bd qd p) = p := by
  unfold removeCurrencyDecimals addCurrencyDecimals multiplicationQuoteOverBase
    Dec.tenExp Dec.mul Dec.quo
  dsimp only
  have hn : (bd - qd + 18).toNat = (bd - qd).toNat + 18 := by omega
  rw [hn]
  set n := (bd - qd).toNat
  have h1 : p.i * 10 ^ (n + 18) = p.i * 10 ^ n * 10 ^ 18 := by
    rw [pow_add]
    ring
  rw [h1, Dec.chop_mul_scale]
  have h2 : p.i * 10 ^ n * 10 ^ 36 = (p.i * 10 ^ 18) * 10 ^ (n + 18) := by
    rw [pow_add]
    rw [show (36 : ℕ) = 18 + 18 by rfl, pow_add]
    ring
  rw [h2, Dec.tdivInt_mul_cancel _ _ (pow_ne_zero _ (by norm_num)),
    Dec.chop_mul_scale]

theorem remove_add_of_dvd (bd qd : ℤ) (p : Dec) (hlt : bd < qd) (h18 : qd - bd ≤ 18)
    (hdvd : (10 : ℤ) ^ (qd - bd).toNat ∣ p.i) :
    removeCurrencyDecimals bd qd (addCurrencyDecimals bd qd p) = p := by
  obtain ⟨c, hc⟩ := hdvd
  set j := (qd - bd).toNat with hj
  have hjle : j ≤ 18 := by omega
  unfold removeCurrencyDecimals addCurrencyDecimals multiplicationQuoteOverBase
    Dec.tenExp Dec.mul Dec.quo
  dsimp only
  have hn : (bd - qd + 18).toNat = 18 - j := by omega
  rw [hn, hc]
  have h1 : 10 ^ j * c * 10 ^ (18 - j) = c * 10 ^ 18 := by
    have : (10 : ℤ) ^ j * 10 ^ (18 - j) = 10 ^ 18 := by
      rw [← pow_add]
      rw [show j + (18 - j) = 18 by omega]
    calc 10 ^ j * c * 10 ^ (18 - j) = c * (10 ^ j * 10 ^ (18 - j)) := by ring
      _ = c * 10 ^ 18 := by rw [this]
  rw [h1, Dec.chop_mul_scale]
  have h2 : c * 10 ^ 36 = (c * 10 ^ (18 + j)) * 10 ^ (18 - j) := by
    have : (10 : ℤ) ^ (18 + j) * 10 ^ (18 - j) = 10 ^ 36 := by
      rw [← pow_add]
      rw [show 18 + j + (18 - j) = 36 by omega]
    calc c * 10 ^ 36 = c * (10 ^ (18 + j) * 10 ^ (18 - j)) := by rw [this]
      _ = (c * 10 ^ (18 + j)) * 10 ^ (18 - j) := by ring
  rw [h2, Dec.tdivInt_mul_cancel _ _ (pow_ne_zero _ (by norm_num))]
  have h3 : c * 10 ^ (18 + j) = (10 ^ j * c) * 10 ^ 18 := by
    rw [pow_add]
    ring
  rw [h3, Dec.chop_mul_scale, ← hc]

theorem add_remove_of_le (bd qd : ℤ) (p : Dec) (h : bd ≤ qd) (h18 : qd - bd ≤ 18) :
    addCurrencyDecimals bd qd (removeCurrencyDecimals bd qd p) = p := by
  set j := (qd - bd).toNat with hj
  have hjle : j ≤ 18 := by omega
  unfold removeCurrencyDecimals addCurrencyDecimals multiplicationQuoteOverBase
    Dec.tenExp Dec.mul Dec.quo
  dsimp only
  have hn : (bd - qd + 18).toNat = 18 - j := by omega
  rw [hn]
  have h1 : p.i * 10 ^ 36 = (p.i * 10 ^ (18 + j)) * 10 ^ (18 - j) := by
    have : (10 : ℤ) ^ (18 + j) * 10 ^ (18 - j) = 10 ^ 36 := by
      rw [← pow_add]
      rw [show 18 + j + (18 - j) = 36 by omega]
    calc p.i * 10 ^ 36 = p.i * (10 ^ (18 + j) * 10 ^ (18 - j)) := by rw [this]
      _ = (p.i * 10 ^ (18 + j)) * 10 ^ (18 - j) := by ring
  rw [h1, Dec.tdivInt_mul_cancel _ _ (pow_ne_zero _ (by norm_num))]
  have h2 : p.i * 10 ^ (18 + j) = (p.i * 10 ^ j) * 10 ^ 18 := by
    rw [pow_add]
    ring
  rw [h2, Dec.chop_mul_scale]
  have h3 : p.i * 10 ^ j * 10 ^ (18 - j) = p.i * 10 ^ 18 := by
    have : (10 : ℤ) ^ j * 10 ^ (18 - j) = 10 ^ 18 := by
      rw [← pow_add]
      rw [show j + (18 - j) = 18 by omega]
    calc p.i * 10 ^ j * 10 ^ (18 - j) = p.i * (10 ^ j * 10 ^ (18 - j)) := by ring
      _ = p.i * 10 ^ 18 := by rw [this]
  rw [h3, Dec.chop_mul_scale]

theorem add_remove_of_dvd (bd qd : ℤ) (p : Dec) (hlt : qd < bd)
    (hdvd : (10 : ℤ) ^ (bd - qd).toNat ∣ p.i) :
    addCurrencyDecimals bd qd (removeCurrencyDecimals bd qd p) = p := by
  obtain ⟨c, hc⟩ := hdvd
  set k := (bd - qd).toNat with hk
  unfold removeCurrencyDecimals addCurrencyDecimals multiplicationQuoteOverBase
    Dec.tenExp Dec.mul Dec.quo
  dsimp only
  have hn : (bd - qd + 18).toNat = k + 18 := by omega
  rw [hn, hc]
  have h1 : 10 ^ k * c * 10 ^ 36 = (c * 10 ^ 18) * 10 ^ (k + 18) := by
    rw [pow_add]
    rw [show (36 : ℕ) = 18 + 18 by rfl, pow_add]
    ring
  rw [h1, Dec.tdivInt_mul_cancel _ _ (pow_ne_zero _ (by norm_num)),
    Dec.chop_mul_scale]
  have h2 : c * 10 ^ (k + 18) = (10 ^ k * c) * 10 ^ 18 := by
    rw [pow_add]
    ring
  rw [h2, Dec.chop_mul_scale, ← hc]

/-- C6 (amended): the currency-decimal shift round-trips whenever no
18-decimal precision is lost: `removeCurrencyDecimals ∘
addCurrencyDecimals` is the identity when `baseDecimals ≥ quoteDecimals`
or `10^(quote-base)` divides the price's scaled mantissa, and
`addCurrencyDecimals ∘ removeCurrencyDecimals` is the identity when
`baseDecimals ≤ quoteDecimals` or `10^(base-quote)` divides the scaled
mantissa (with `quoteDecimals - baseDecimals ≤ 18`, as
`getTenExponentN` requires). -/
theorem currencyDecimals_roundTrip (bd qd : ℤ) (p : Dec) (h18 : qd - bd ≤ 18) :
    ((qd ≤ bd ∨ (10 : ℤ) ^ (qd - bd).toNat ∣ p.i) →
      removeCurrencyDecimals bd qd (addCurrencyDecimals bd qd p) = p) ∧
    ((bd ≤ qd ∨ (10 : ℤ) ^ (bd - qd).toNat ∣ p.i) →
      addCurrencyDecimals bd qd (removeCurrencyDecimals bd qd p) = p) := by
  constructor
  · intro h
    by_cases hle : qd ≤ bd
    · exact remove_add_of_le bd qd p hle
    · rcases h with h | h
      · exact absurd h hle
      · exact remove_add_of_dvd bd qd p (by omega) h18 h
  · intro h
    by_cases hle : bd ≤ qd
    · exact add_remove_of_le bd qd p hle h18
    · rcases h with h | h
      · exact absurd h hle
      · exact add_remove_of_dvd bd qd p (by omega) h

/-- Witness for C6 at a concrete input. -/
theorem currencyDecimals_roundTrip_witness :
    removeCurrencyDecimals 18 6 (addCurrencyDecimals 18 6 ⟨123⟩) = ⟨123⟩ :=
  (currencyDecimals_roundTrip 18 6 ⟨123⟩ (by norm_num)).1 (Or.inl (by norm_num))

/-- C6 counterexample to the claim as stated: with base decimals 6 and
quote decimals 18 the multiplier is `10^-12`, and the smallest positive
price `10^-18` is multiplied to `10^-30`, which rounds to `0` at 18
decimals; dividing back cannot recover it, so
`removeCurrencyDecimals(addCurrencyDecimals(p)) = 0 ≠ p`. -/
theorem currencyDecimals_roundTrip_cex :
    removeCurrencyDecimals 6 18 (addCurrencyDecimals 6 18 ⟨1⟩) ≠ ⟨1⟩ := by
  decide

theorem Dec.chop_coe_nat (n : ℕ) : Dec.chop (n : ℤ) = (Dec.chopNat n : ℤ) := by
  unfold Dec.chop
  rw [if_neg (by omega), Int.natAbs_ofNat]

theorem Dec.quo_nonneg (x y : Dec) (hx : 0 ≤ x.i) (hy : 0 < y.i) :
    (x.quo y).i = (Dec.chopNat (x.i.toNat * 10 ^ 36 / y.i.toNat) : ℤ) := by
  unfold Dec.quo Dec.tdivInt
  dsimp only
  rw [if_pos (mul_nonneg (mul_nonneg hx (by norm_num)) hy.le)]
  rw [Dec.chop_coe_nat]
  have h1 : (x.i * 10 ^ 36).natAbs = x.i.toNat * 10 ^ 36 := by
    rw [Int.natAbs_mul]
    have h10 : ((10 : ℤ) ^ 36).natAbs = 10 ^ 36 := rfl
    rw [h10]
    omega
  have h2 : y.i.natAbs = y.i.toNat := by omega
  rw [h1, h2]

theorem div_pair_sum (x y t : ℕ) (h : 0 < t) (hxy : x + y = t * 10 ^ 36) :
    x / t + y / t = 10 ^ 36 ∨ x / t + y / t = 10 ^ 36 - 1 := by
  have e1 := Nat.div_add_mod x t
  have e2 := Nat.div_add_mod y t
  have r1 : x % t < t := Nat.mod_lt _ h
  have r2 : y % t < t := Nat.mod_lt _ h
  have hA : t * (x / t + y / t) + (x % t + y % t) = t * 10 ^ 36 := by
    calc t * (x / t + y / t) + (x % t + y % t)
        = (t * (x / t) + x % t) + (t * (y / t) + y % t) := by ring
      _ = x + y := by rw [e1, e2]
      _ = t * 10 ^ 36 := hxy
  have up : x / t + y / t ≤ 10 ^ 36 := Nat.le_of_mul_le_mul_left (Nat.le.intro hA) h
  have down : 10 ^ 36 < (x / t + y / t) + 2 := by
    refine Nat.lt_of_mul_lt_mul_left (a := t) ?_
    calc t * 10 ^ 36 = t * (x / t + y / t) + (x % t + y % t) := hA.symm
      _ < t * (x / t + y / t) + 2 * t :=
          Nat.add_lt_add_left (by omega) (t * (x / t + y / t))
      _ = t * ((x / t + y / t) + 2) := by ring
  omega

theorem chopNat_pair_sum (s1 s2 : ℕ)
    (h : s1 + s2 = 10 ^ 36 ∨ s1 + s2 = 10 ^ 36 - 1) :
    Dec.chopNat s1 + Dec.chopNat s2 = 10 ^ 18 ∨
    Dec.chopNat s1 + Dec.chopNat s2 = 10 ^ 18 - 1 := by
  unfold Dec.chopNat
  split_ifs <;> omega

theorem quo_pair_sum (x y : Dec) (hx : 0 ≤ x.i) (hy : 0 ≤ y.i)
    (hxy : (x.add y).isZero = false) :
    (x.quo (x.add y)).i + (y.quo (x.add y)).i = 10 ^ 18 ∨
    (x.quo (x.add y)).i + (y.quo (x.add y)).i = 10 ^ 18 - 1 := by
  have ht : 0 < (x.add y).i := by
    unfold Dec.isZero at hxy
    unfold Dec.add at *
    simp only [decide_eq_false_iff_not] at hxy
    dsimp only at *
    omega
  rw [Dec.quo_nonneg x (x.add y) hx ht, Dec.quo_nonneg y (x.add y) hy ht]
  have hadd : (x.add y).i.toNat = x.i.toNat + y.i.toNat := by
    unfold Dec.add
    dsimp only
    omega
  rw [hadd]
  have h0 : 0 < x.i.toNat + y.i.toNat := by
    unfold Dec.add at ht
    dsimp only at ht
    omega
  have hstep := div_pair_sum (x.i.toNat * 10 ^ 36) (y.i.toNat * 10 ^ 36)
    (x.i.toNat + y.i.toNat) h0 (by ring)
  have hchop := chopNat_pair_sum _ _ hstep
  omega

/-- C9 (amended): `baseDepositOnly` and `quoteDepositOnly` are never both
true; `depositPercentages` is exactly `(0, 0)` when a fiat value is
missing or the total fiat value is zero, `(1, 0)` when base-deposit-only,
`(0, 1)` when quote-deposit-only, and in the value-proportional branch
the pair of rounded `Dec` shares sums to exactly 1 or falls short of 1 by
exactly `10^-18` (one unit in the last of the 18 decimals). -/
theorem depositState_invariants :
    (∀ (cur : Dec) (fr : Bool) (r : Dec × Dec),
      ¬(baseDepositOnly cur fr r = true ∧ quoteDepositOnly cur fr r = true)) ∧
    (∀ (a0 a1 : Option Dec) (b q : Bool), (a0 = none ∨ a1 = none) →
      (depositPercentages a0 a1 b q).1.add (depositPercentages a0 a1 b q).2 =
        Dec.ofInt 0) ∧
    (∀ (x y : Dec) (q : Bool),
      depositPercentages (some x) (some y) true q = (Dec.ofInt 1, Dec.ofInt 0)) ∧
    (∀ (x y : Dec),
      depositPercentages (some x) (some y) false true = (Dec.ofInt 0, Dec.ofInt 1)) ∧
    (∀ (x y : Dec), (x.add y).isZero = true →
      depositPercentages (some x) (some y) false false = (Dec.ofInt 0, Dec.ofInt 0)) ∧
    (∀ (x y : Dec), 0 ≤ x.i → 0 ≤ y.i → (x.add y).isZero = false →
      (depositPercentages (some x) (some y) false false).1.add
        (depositPercentages (some x) (some y) false false).2 = Dec.ofInt 1 ∨
      (depositPercentages (some x) (some y) false false).1.add
        (depositPercentages (some x) (some y) false false).2 = ⟨10 ^ 18 - 1⟩) := by
  refine ⟨not_both_deposit_only, ?_, ?_, ?_, ?_, ?_⟩
  · rintro a0 a1 b q (rfl | rfl)
    · simp [depositPercentages, Dec.add, Dec.ofInt]
    · rcases a0 with _ | v <;> simp [depositPercentages, Dec.add, Dec.ofInt]
  · intro x y q
    rfl
  · intro x y
    rfl
  · intro x y hz
    have : depositPercentages (some x) (some y) false false =
        if (x.add y).isZero then (Dec.ofInt 0, Dec.ofInt 0)
        else (x.quo (x.add y), y.quo (x.add y)) := rfl
    rw [this, if_pos hz]
  · intro x y hx hy hz
    have hred : depositPercentages (some x) (some y) false false =
        (x.quo (x.add y), y.quo (x.add y)) := by
      have : depositPercentages (some x) (some y) false false =
          if (x.add y).isZero then (Dec.ofInt 0, Dec.ofInt 0)
          else (x.quo (x.add y), y.quo (x.add y)) := rfl
      rw [this, if_neg (by rw [hz]; exact Bool.false_ne_true)]
    rw [hred]
    rcases quo_pair_sum x y hx hy hz with h | h
    · exact Or.inl (congrArg Dec.mk (by dsimp only; omega))
    · exact Or.inr (congrArg Dec.mk (by dsimp only; omega))

/-- Witness for C9 at a concrete input. -/
theorem depositState_invariants_witness :
    depositPercentages (some ⟨0⟩) (some ⟨0⟩) false false = (Dec.ofInt 0, Dec.ofInt 0) :=
  depositState_invariants.2.2.2.2.1 ⟨0⟩ ⟨0⟩ (by decide)

/-- C9 counterexample to the claim as stated: fiat values `10^-18` and
`2 - 2*10^-18` (neither deposit-only, nonzero total): the first share
`10^-18 / (2 - 10^-18)` hits a banker's-rounding tie and rounds to 0,
the second rounds down, and the shares sum to `1 - 10^-18`, which is
neither exactly 0 nor exactly 1. -/
theorem depositPercentages_sum_cex :
    ((depositPercentages (some ⟨1⟩) (some ⟨2 * 10 ^ 18 - 2⟩) false false).1.add
        (depositPercentages (some ⟨1⟩) (some ⟨2 * 10 ^ 18 - 2⟩) false false).2 ≠
      Dec.ofInt 0) ∧
    ((depositPercentages (some ⟨1⟩) (some ⟨2 * 10 ^ 18 - 2⟩) false false).1.add
        (depositPercentages (some ⟨1⟩) (some ⟨2 * 10 ^ 18 - 2⟩) false false).2 ≠
      Dec.ofInt 1) := by
  constructor
  · decide
  · decide

theorem priceToTick_mono (p q : Dec) (tp tq : ℤ) (h : p.i ≤ q.i)
    (hp : priceToTick p = some tp) (hq : priceToTick q = some tq) : tp ≤ tq := by
  unfold priceToTick at hp hq
  have hdiv : p.i / 10 ^ 12 ≤ q.i / 10 ^ 12 :=
    Int.ediv_le_ediv (by norm_num) h
  have hmm : minTick ≤ maxTick := by decide
  split_ifs at hp hq <;>
    first
      | exact Option.noConfusion hp
      | exact Option.noConfusion hq
      | (injection hp with hp; injection hq with hq; omega)

theorem priceToTick_bounds (p : Dec) (t : ℤ) (h : priceToTick p = some t) :
    minTick ≤ t ∧ t ≤ maxTick := by
  unfold priceToTick at h
  have hmm : minTick ≤ maxTick := by decide
  split_ifs at h <;>
    first
      | exact Option.noConfusion h
      | (injection h with h; omega)

theorem roundToNearestDivisible_dvd (t d : ℤ) :
    d ∣ roundToNearestDivisible t d :=
  ⟨_, rfl⟩

theorem roundToNearestDivisible_mono (d : ℤ) (hd : 0 < d) (t u : ℤ) (h : t ≤ u) :
    roundToNearestDivisible t d ≤ roundToNearestDivisible u d := by
  unfold roundToNearestDivisible
  exact mul_le_mul_of_nonneg_left (Int.ediv_le_ediv (by omega) (by omega)) hd.le

theorem roundToNearestDivisible_close (t d : ℤ) (hd : 0 < d) :
    2 * (roundToNearestDivisible t d - t) ≤ d ∧
    -d < 2 * (roundToNearestDivisible t d - t) := by
  unfold roundToNearestDivisible
  have heq := Int.ediv_add_emod (2 * t + d) (2 * d)
  have hlo := Int.emod_nonneg (2 * t + d) (show (2 * d) ≠ 0 by omega)
  have hhi := Int.emod_lt_of_pos (2 * t + d) (show (0 : ℤ) < 2 * d by omega)
  have key : 2 * (d * ((2 * t + d) / (2 * d))) =
      2 * t + d - (2 * t + d) % (2 * d) := by
    linear_combination heq
  omega

/-- C3 (amended): for a non-full-range input on a loaded pool whose
clamped price range is not inverted (`range[0] ≤ range[1]`), `tickRange`
returns ticks with `minTick ≤ lowerTick`, `upperTick ≤ maxTick` and
`lowerTick < upperTick` (in the `catch` path, where `priceToTick` throws
on a price, this is the pair `[minTick, maxTick]`); and when both range
prices convert without throwing and round to the same divisible tick,
the lower tick is padded down and the upper tick padded up by one tick
spacing before clamping. -/
theorem tickRange_spec (tickDivisor : ℤ) (range01 : Dec × Dec)
    (hd : 0 < tickDivisor) (hr : range01.1.i ≤ range01.2.i) :
    minTick ≤ (tickRange false tickDivisor range01).1 ∧
    (tickRange false tickDivisor range01).2 ≤ maxTick ∧
    (tickRange false tickDivisor range01).1 < (tickRange false tickDivisor range01).2 ∧
    (∀ lT uT, priceToTick range01.1 = some lT → priceToTick range01.2 = some uT →
      roundToNearestDivisible lT tickDivisor =
        roundToNearestDivisible uT tickDivisor →
      tickRange false tickDivisor range01 =
        (if roundToNearestDivisible lT tickDivisor - tickDivisor < minTick
         then minTick
         else roundToNearestDivisible lT tickDivisor - tickDivisor,
         if maxTick < roundToNearestDivisible uT tickDivisor + tickDivisor
         then maxTick
         else roundToNearestDivisible uT tickDivisor + tickDivisor)) := by
  have hmm : minTick < maxTick := by decide
  rcases hl : priceToTick range01.1 with _ | lT
  · have hfold : tickRange false tickDivisor range01 = (minTick, maxTick) := by
      unfold tickRange
      rcases hu : priceToTick range01.2 with _ | uT
      · rw [hl]
        rfl
      · rw [hl]
        rfl
    refine ⟨by rw [hfold], by rw [hfold], by rw [hfold]; exact hmm, ?_⟩
    intro lT uT hl2 _ _
    exact Option.noConfusion hl2
  · rcases hu : priceToTick range01.2 with _ | uT
    · have hfold : tickRange false tickDivisor range01 = (minTick, maxTick) := by
        unfold tickRange
        rw [hl, hu]
        rfl
      refine ⟨by rw [hfold], by rw [hfold], by rw [hfold]; exact hmm, ?_⟩
      intro lT2 uT2 _ hu2 _
      exact Option.noConfusion hu2
    · obtain ⟨hbl1, hbl2⟩ := priceToTick_bounds range01.1 lT hl
      obtain ⟨hbu1, hbu2⟩ := priceToTick_bounds range01.2 uT hu
      have hmono := priceToTick_mono range01.1 range01.2 lT uT hr hl hu
      have hrmono := roundToNearestDivisible_mono tickDivisor hd lT uT hmono
      obtain ⟨hcl1, hcl2⟩ := roundToNearestDivisible_close lT tickDivisor hd
      obtain ⟨hcu1, hcu2⟩ := roundToNearestDivisible_close uT tickDivisor hd
      set lR := roundToNearestDivisible lT tickDivisor with hlR
      set uR := roundToNearestDivisible uT tickDivisor with huR
      have hbody : tickRange false tickDivisor range01 =
          (if (if lR = uR then (lR - tickDivisor, uR + tickDivisor) else (lR, uR)).1 <
              minTick then minTick
           else (if lR = uR then (lR - tickDivisor, uR + tickDivisor) else (lR, uR)).1,
           if maxTick <
              (if lR = uR then (lR - tickDivisor, uR + tickDivisor) else (lR, uR)).2
           then maxTick
           else (if lR = uR then (lR - tickDivisor, uR + tickDivisor) else (lR, uR)).2) := by
        unfold tickRange
        rw [hl, hu]
        rfl
      have hinj : ∀ lT2 uT2, some lT = some lT2 → some uT = some uT2 →
          roundToNearestDivisible lT2 tickDivisor = lR ∧
            roundToNearestDivisible uT2 tickDivisor = uR := by
        intro lT2 uT2 h1 h2
        injection h1 with h1
        injection h2 with h2
        rw [← h1, ← h2]
        exact ⟨hlR.symm, huR.symm⟩
      by_cases hpad : lR = uR
      · have hfoldp : tickRange false tickDivisor range01 =
            (if lR - tickDivisor < minTick then minTick else lR - tickDivisor,
             if maxTick < uR + tickDivisor then maxTick else uR + tickDivisor) := by
          rw [hbody, if_pos hpad]
        refine ⟨?_, ?_, ?_, ?_⟩
        · rw [hfoldp]; dsimp only; split_ifs <;> omega
        · rw [hfoldp]; dsimp only; split_ifs <;> omega
        · rw [hfoldp]; dsimp only; split_ifs <;> omega
        · intro lT2 uT2 hl2 hu2 _
          obtain ⟨he1, he2⟩ := hinj lT2 uT2 hl2 hu2
          rw [he1, he2]
          exact hfoldp
      · have hge : tickDivisor ≤ uR - lR :=
          Int.le_of_dvd (by omega)
            (dvd_sub (roundToNearestDivisible_dvd uT tickDivisor)
              (roundToNearestDivisible_dvd lT tickDivisor))
        have hfoldn : tickRange false tickDivisor range01 =
            (if lR < minTick then minTick else lR,
             if maxTick < uR then maxTick else uR) := by
          rw [hbody, if_neg hpad]
        refine ⟨?_, ?_, ?_, ?_⟩
        · rw [hfoldn]; dsimp only; split_ifs <;> omega
        · rw [hfoldn]; dsimp only; split_ifs <;> omega
        · rw [hfoldn]; dsimp only; split_ifs <;> omega
        · intro lT2 uT2 hl2 hu2 hpad2
          obtain ⟨he1, he2⟩ := hinj lT2 uT2 hl2 hu2
          rw [he1, he2] at hpad2
          exact absurd hpad2 hpad

/-- Witness for C3 at a concrete input. -/
theorem tickRange_spec_witness :
    minTick ≤ (tickRange false 100 (⟨10 ^ 18⟩, ⟨2 * 10 ^ 18⟩)).1 :=
  (tickRange_spec 100 (⟨10 ^ 18⟩, ⟨2 * 10 ^ 18⟩) (by norm_num) (by norm_num)).1

/-- C3 counterexample to the claim as stated: min price 300 and max
price 2 — both inside the valid price band, so `priceToTick` throws on
neither and the `catch` is not taken (the config reports this inverted
state through `InvalidRangeError` but `tickRange` still computes) — give
ticks with `lowerTick > upperTick`, violating the claimed strict
order. -/
theorem tickRange_inverted_cex :
    (priceToTick (⟨300 * 10 ^ 18⟩ : Dec)).isSome = true ∧
    (priceToTick (⟨2 * 10 ^ 18⟩ : Dec)).isSome = true ∧
    ¬((tickRange false 100 (⟨300 * 10 ^ 18⟩, ⟨2 * 10 ^ 18⟩)).1 <
      (tickRange false 100 (⟨300 * 10 ^ 18⟩, ⟨2 * 10 ^ 18⟩)).2) := by
  refine ⟨by decide, by decide, by decide⟩

theorem getD_eq_getElem (l : List Char) (i : ℕ) (h : i < l.length) :
    l.getD i ' ' = l[i] := by
  simp [List.getD_eq_getElem?_getD, List.getElem?_eq_getElem h]

theorem getD_drop (l : List Char) (m n : ℕ) :
    (l.drop m).getD n ' ' = l.getD (m + n) ' ' := by
  simp [List.getD_eq_getElem?_getD, List.getElem?_drop]

theorem mem_getD (l : List Char) (x : Char) (hx : x ∈ l) :
    ∃ n, n < l.length ∧ l.getD n ' ' = x := by
  obtain ⟨n, hn, hxn⟩ := List.mem_iff_getElem.mp hx
  exact ⟨n, hn, by rw [getD_eq_getElem _ _ hn]; exact hxn⟩

theorem findIdx?_acc_spec (p : Char → Bool) :
    ∀ (l : List Char) (s i : ℕ), l.findIdx? p s = some i →
      s ≤ i ∧ i - s < l.length ∧ p (l.getD (i - s) ' ') = true := by
  intro l
  induction l with
  | nil =>
    intro s i h
    simp [List.findIdx?] at h
  | cons a t ih =>
    intro s i h
    rw [List.findIdx?_cons] at h
    by_cases hp : p a
    · rw [if_pos hp] at h
      injection h with h
      subst h
      simpa using hp
    · rw [if_neg hp] at h
      obtain ⟨h1, h2, h3⟩ := ih (s + 1) i h
      obtain ⟨j, rfl⟩ : ∃ j, i = s + 1 + j := ⟨i - (s + 1), by omega⟩
      have hj : s + 1 + j - (s + 1) = j := by omega
      rw [hj] at h3
      have hj2 : s + 1 + j - s = j + 1 := by omega
      rw [hj2]
      exact ⟨by omega, by simp only [List.length_cons]; omega,
        by rw [List.getD_cons_succ]; exact h3⟩

theorem findIdx?_spec (p : Char → Bool) (l : List Char) (i : ℕ)
    (h : l.findIdx? p = some i) : i < l.length ∧ p (l.getD i ' ') = true := by
  have hr := findIdx?_acc_spec p l 0 i h
  simpa using hr

theorem trimLoop_le (s : List Char) (dpi : ℕ) : ∀ j, trimLoop s dpi j ≤ j := by
  intro j
  induction j with
  | zero => simp [trimLoop]
  | succ j ih =>
    unfold trimLoop
    split_ifs with h
    · omega
    · exact le_refl _

theorem trimLoop_stop (s : List Char) (dpi : ℕ) :
    ∀ j, trimLoop s dpi j = 0 ∨
      ¬(dpi < trimLoop s dpi j ∧ s.getD (trimLoop s dpi j) ' ' = '0') := by
  intro j
  induction j with
  | zero =>
    left
    simp [trimLoop]
  | succ j ih =>
    unfold trimLoop
    split_ifs with h
    · exact ih
    · right
      exact h

theorem trimLoop_zeros (s : List Char) (dpi : ℕ) :
    ∀ j i, trimLoop s dpi j < i → i ≤ j → dpi < i ∧ s.getD i ' ' = '0' := by
  intro j
  induction j with
  | zero =>
    intro i h1 h2
    simp [trimLoop] at h1
    omega
  | succ j ih =>
    intro i h1 h2
    unfold trimLoop at h1
    split_ifs at h1 with h
    · by_cases hij : i ≤ j
      · exact ih i h1 hij
      · have hi : i = j + 1 := by omega
        rw [hi]
        exact h
    · omega

theorem dropWhile_append_all (p : Char → Bool) :
    ∀ (l1 l2 : List Char), (∀ x ∈ l1, p x = true) →
      (l1 ++ l2).dropWhile p = l2.dropWhile p := by
  intro l1
  induction l1 with
  | nil =>
    intro l2 _
    rfl
  | cons a t ih =>
    intro l2 h
    rw [List.cons_append, List.dropWhile_cons,
      if_pos (h a (List.mem_cons_self a t))]
    exact ih l2 fun x hx => h x (List.mem_cons_of_mem a hx)

theorem dropWhile_head_false (p : Char → Bool) (l : List Char)
    (h : ∀ c, l.head? = some c → p c = false) : l.dropWhile p = l := by
  cases l with
  | nil => rfl
  | cons a t =>
    have ha := h a rfl
    rw [List.dropWhile_cons]
    rw [ha]
    rfl

theorem dropTrailingZeros_append (u zs : List Char)
    (hz : ∀ x ∈ zs, x = '0')
    (hu : ∀ c, u.getLast? = some c → c ≠ '0') :
    dropTrailingZeros (u ++ zs) = u := by
  unfold dropTrailingZeros
  rw [List.reverse_append]
  rw [dropWhile_append_all _ _ _ ?hza]
  case hza =>
    intro x hx
    rw [List.mem_reverse] at hx
    simp [hz x hx]
  rw [dropWhile_head_false _ _ ?hhd]
  case hhd =>
    intro c hc
    rw [List.head?_reverse] at hc
    simpa using hu c hc
  exact List.reverse_reverse u

theorem take_getLast? (l : List Char) (r : ℕ) (h : r < l.length) :
    (l.take (r + 1)).getLast? = some (l.getD r ' ') := by
  have hlen : (l.take (r + 1)).length = r + 1 := by
    rw [List.length_take]
    omega
  rw [List.getLast?_eq_getElem?, hlen]
  simp only [Nat.add_sub_cancel]
  rw [List.getElem?_take, if_pos (by omega), List.getElem?_eq_getElem h,
    getD_eq_getElem _ _ h]

/-- C7: `trimZerosFromEnd` returns `str` unchanged when it has no `'.'`
or when every character after the first `'.'` is `'0'`; otherwise it
removes all trailing `'0'` characters, and also the character at the new
end if it is a `'.'`. -/
theorem trimZerosFromEnd_spec (s : List Char) :
    ('.' ∉ s → trimZerosFromEnd s = s) ∧
    (∀ dpi, s.findIdx? (· = '.') = some dpi →
      ((s.drop (dpi + 1)).all (· = '0') = true → trimZerosFromEnd s = s) ∧
      ((s.drop (dpi + 1)).all (· = '0') = false →
        trimZerosFromEnd s =
          if (dropTrailingZeros s).getLast? = some '.' then
            (dropTrailingZeros s).dropLast
          else dropTrailingZeros s)) := by
  constructor
  · intro hdot
    have hnone : s.findIdx? (· = '.') = none := by
      rw [List.findIdx?_eq_none_iff]
      intro x hx
      simp only [decide_eq_false_iff_not]
      intro hx0
      exact hdot (hx0 ▸ hx)
    unfold trimZerosFromEnd
    rw [hnone]
  · intro dpi hfind
    have hunfold : trimZerosFromEnd s =
        (if (s.drop (dpi + 1)).all (· = '0') then s
         else
           let i := trimLoop s dpi (s.length - 1)
           let i2 := if s.getD i ' ' = '.' then i - 1 else i
           s.take (i2 + 1)) := by
      unfold trimZerosFromEnd
      rw [hfind]
    constructor
    · intro hall
      rw [hunfold, if_pos hall]
    · intro hnz
      obtain ⟨hdpilen, _⟩ := findIdx?_spec _ s dpi hfind
      -- a non-'0' character exists strictly after the decimal point
      have hex : ∃ k, dpi < k ∧ k < s.length ∧ s.getD k ' ' ≠ '0' := by
        have h1 : ∃ x ∈ s.drop (dpi + 1), x ≠ '0' := by
          by_contra hc
          push_neg at hc
          have hall : (s.drop (dpi + 1)).all (· = '0') = true :=
            List.all_eq_true.mpr fun x hx => by simpa using hc x hx
          rw [hall] at hnz
          exact Bool.noConfusion hnz
        obtain ⟨x, hx, hx0⟩ := h1
        obtain ⟨n, hn, hxn⟩ := mem_getD _ x hx
        rw [List.length_drop] at hn
        rw [getD_drop] at hxn
        exact ⟨dpi + 1 + n, by omega, by omega, by rw [hxn]; exact hx0⟩
      obtain ⟨k, hk1, hk2, hk3⟩ := hex
      rw [hunfold, if_neg (by rw [hnz]; exact Bool.false_ne_true)]
      dsimp only
      set r := trimLoop s dpi (s.length - 1) with hrdef
      have hrle : r ≤ s.length - 1 := trimLoop_le s dpi (s.length - 1)
      have hslen : 0 < s.length := by omega
      have hrlen : r < s.length := by omega
      -- the final index is after the decimal point and is not '0'
      have hrgt : dpi < r := by
        by_contra hc
        push_neg at hc
        have := (trimLoop_zeros s dpi (s.length - 1) k (by omega) (by omega)).2
        exact hk3 this
      have hrnz : s.getD r ' ' ≠ '0' := by
        rcases trimLoop_stop s dpi (s.length - 1) with h0 | hstop
        · rw [← hrdef] at h0
          omega
        · rw [← hrdef] at hstop
          intro hcontra
          exact hstop ⟨hrgt, hcontra⟩
      -- everything after the final index is '0'
      have hzs : ∀ x ∈ s.drop (r + 1), x = '0' := by
        intro x hx
        obtain ⟨n, hn, hxn⟩ := mem_getD _ x hx
        rw [List.length_drop] at hn
        rw [getD_drop] at hxn
        have := (trimLoop_zeros s dpi (s.length - 1) (r + 1 + n)
          (by omega) (by omega)).2
        rw [hxn] at this
        exact this
      have hu : ∀ c, (s.take (r + 1)).getLast? = some c → c ≠ '0' := by
        intro c hc
        rw [take_getLast? s r hrlen] at hc
        injection hc with hc
        rw [← hc]
        exact hrnz
      have hdt : dropTrailingZeros s = s.take (r + 1) := by
        conv_lhs => rw [← List.take_append_drop (r + 1) s]
        exact dropTrailingZeros_append _ _ hzs hu
      rw [hdt, take_getLast? s r hrlen]
      by_cases hdot : s.getD r ' ' = '.'
      · rw [if_pos hdot]
        rw [if_pos (show some (s.getD r ' ') = some '.' from by rw [hdot])]
        have hr1 : r - 1 + 1 = r := by omega
        rw [hr1, List.dropLast_eq_take, List.length_take]
        have hmin : min (r + 1) s.length - 1 = r := by omega
        rw [hmin, List.take_take]
        have hminr : min r (r + 1) = r := by omega
        rw [hminr]
      · rw [if_neg hdot]
        rw [if_neg (show ¬(some (s.getD r ' ') = some '.') from
          fun hcontra => hdot (Option.some.inj hcontra))]

/-- Witness for C7 at a concrete input: `"1.200"` trims to `"1.2"`. -/
theorem trimZerosFromEnd_spec_witness :
    trimZerosFromEnd ['1', '.', '2', '0', '0'] = ['1', '.', '2'] := by
  have h := ((trimZerosFromEnd_spec ['1', '.', '2', '0', '0']).2 1
    (by decide)).2 (by decide)
  rw [h]
  decide

/-- C1 (amended): `getPositionStatus` derives the status by fixed
precedence — `fullRange`, else `unbonding`, else `superfluidStaked`,
else `superfluidUnstaking`; otherwise, when
`lowerPrice < currentPrice < upperPrice`, it returns `nearBounds` iff the
percentage `diff.quo(rangeDiff).mul(100)` — where `diff` is the smaller
of the two float64-rounded price differences (`f64` standing for the
source's `Number(x.toString())` round-trip), computed in 18-decimal
`Dec` arithmetic and taken as `0` when `currentPrice` or the width is
zero — is at most `15`, and `inRange` otherwise; `outOfRange` in all
remaining cases. -/
theorem getPositionStatus_precedence (f64 : Dec → Dec) (lp up cp : Dec)
    (isFullRange isSuperfluid isSuperfluidUnstaking isUnbonding : Bool) :
    (isFullRange = true →
      getPositionStatus f64 lp up cp isFullRange isSuperfluid
        isSuperfluidUnstaking isUnbonding = .fullRange) ∧
    (isFullRange = false → isUnbonding = true →
      getPositionStatus f64 lp up cp isFullRange isSuperfluid
        isSuperfluidUnstaking isUnbonding = .unbonding) ∧
    (isFullRange = false → isUnbonding = false → isSuperfluid = true →
      getPositionStatus f64 lp up cp isFullRange isSuperfluid
        isSuperfluidUnstaking isUnbonding = .superfluidStaked) ∧
    (isFullRange = false → isUnbonding = false → isSuperfluid = false →
     isSuperfluidUnstaking = true →
      getPositionStatus f64 lp up cp isFullRange isSuperfluid
        isSuperfluidUnstaking isUnbonding = .superfluidUnstaking) ∧
    (isFullRange = false → isUnbonding = false → isSuperfluid = false →
     isSuperfluidUnstaking = false → lp.lt cp = true → up.gt cp = true →
      ((if cp.isZero || (up.sub lp).isZero then Dec.ofInt 0
        else ((Dec.jsMin (f64 (cp.sub lp)) (f64 (up.sub cp))).quo
          (up.sub lp)).mul (Dec.ofInt 100)).lte (Dec.ofInt 15) = true →
        getPositionStatus f64 lp up cp isFullRange isSuperfluid
          isSuperfluidUnstaking isUnbonding = .nearBounds) ∧
      ((if cp.isZero || (up.sub lp).isZero then Dec.ofInt 0
        else ((Dec.jsMin (f64 (cp.sub lp)) (f64 (up.sub cp))).quo
          (up.sub lp)).mul (Dec.ofInt 100)).lte (Dec.ofInt 15) = false →
        getPositionStatus f64 lp up cp isFullRange isSuperfluid
          isSuperfluidUnstaking isUnbonding = .inRange)) ∧
    (isFullRange = false → isUnbonding = false → isSuperfluid = false →
     isSuperfluidUnstaking = false → (lp.lt cp && up.gt cp) = false →
      getPositionStatus f64 lp up cp isFullRange isSuperfluid
        isSuperfluidUnstaking isUnbonding = .outOfRange) := by
  unfold getPositionStatus
  refine ⟨?_, ?_, ?_, ?_, ?_, ?_⟩
  · intro h1
    simp [h1]
  · intro h1 h2
    simp [h1, h2]
  · intro h1 h2 h3
    simp [h1, h2, h3]
  · intro h1 h2 h3 h4
    simp [h1, h2, h3, h4]
  · intro h1 h2 h3 h4 h5 h6
    constructor
    · intro h7
      simp only [Bool.or_eq_true] at h7
      simp [h1, h2, h3, h4, h5, h6, h7]
    · intro h7
      simp only [Bool.or_eq_true] at h7
      simp [h1, h2, h3, h4, h5, h6, h7]
  · intro h1 h2 h3 h4 h5
    simp [h1, h2, h3, h4, h5]

/-- Witness for C1 at a concrete input. -/
theorem getPositionStatus_precedence_witness :
    getPositionStatus (fun d => d) ⟨0⟩ ⟨10 ^ 18⟩ ⟨1⟩ true false false false =
      .fullRange :=
  (getPositionStatus_precedence (fun d => d) ⟨0⟩ ⟨10 ^ 18⟩ ⟨1⟩
    true false false false).1 rfl

/-- C1 counterexample to the claim as stated: with no flags set,
`lowerPrice = 0 < currentPrice = 1.5 < upperPrice = 10 - 10^-17`.  The
deciding (smaller) difference is `currentPrice - lowerPrice = 1.5`,
which is exactly representable in float64 and round-trips through
`Number((1.5).toString())` unchanged, so instantiating the float64
round-trip with the identity matches the program at this input (the
larger difference `8.5 - 10^-17` rounds to `8.5`, far below half a
float64 ulp away, leaving the minimum `1.5` either way).  The exact
distance `1.5` strictly exceeds 15% of the width `10 - 10^-17`, so the
claim requires `inRange`; the code's `Dec` division rounds the ratio to
exactly `0.15` and returns `nearBounds`. -/
theorem getPositionStatus_rounding_cex :
    getPositionStatus (fun d => d) ⟨0⟩ ⟨10 ^ 19 - 10⟩ ⟨15 * 10 ^ 17⟩
      false false false false = .nearBounds ∧
    (0 : ℤ) < 15 * 10 ^ 17 ∧ (15 * 10 ^ 17 : ℤ) < 10 ^ 19 - 10 ∧
    15 * ((10 ^ 19 - 10 : ℤ) - 0) <
      100 * min (15 * 10 ^ 17 - 0) ((10 ^ 19 - 10 : ℤ) - 15 * 10 ^ 17) := by
  refine ⟨by decide, by decide, by decide, by decide⟩

end Osmosis
